import Mathlib

/-!
Verification development for `deeppavlov/models/preprocessors/odqa_preprocessors.py`.

The file embeds the two components of that module — `DocumentChunker` and
`StringMultiplier` — as executable Lean definitions and proves the stated
properties about them.  Python strings are modelled as Lean `String`
(a list of characters), Python lists as Lean `List`, and the dynamically
typed per-document result entries as the inductive `PyObj` below, so that
the shallow `isinstance(..., list)` check performed by the flatten logic
can be stated faithfully.  Fallible operations (out-of-range indexing,
`range` with a zero step) are modelled with `Option`.
-/

/-- The set of ASCII whitespace characters recognised by Python's
`str.split()` / `str.strip()` (space, tab, newline, carriage return,
vertical tab, form feed). -/
def isPySpace (c : Char) : Bool :=
  c = ' ' || c = '\t' || c = '\n' || c = '\r' || c = '\x0b' || c = '\x0c'

/-- Accumulator-style scanner modelling Python's `str.split()` (split on runs
of whitespace, discarding empty pieces).  `cur` holds the characters of the
token currently being read, in reverse order. -/
def wsTokensAcc : List Char → List Char → List String
  | cur, [] => if cur.isEmpty then [] else [String.mk cur.reverse]
  | cur, c :: cs =>
    if isPySpace c then
      if cur.isEmpty then wsTokensAcc [] cs
      else String.mk cur.reverse :: wsTokensAcc [] cs
    else wsTokensAcc (c :: cur) cs

/-- The list of whitespace-delimited tokens of a character list: Python's
`s.split()` with no argument. -/
def wsTokens (cs : List Char) : List String := wsTokensAcc [] cs

/-- Python `s.split()` on a `String`. -/
def pySplitWS (s : String) : List String := wsTokens s.data

/-- Python `len(s.split())`: the whitespace-token count of a string. -/
def numTokens (s : String) : Nat := (pySplitWS s).length

/-- Python `' '.join(l)`: concatenate the strings of `l` with single spaces. -/
def joinSp : List String → String
  | [] => ""
  | [s] => s
  | s :: rest => s ++ " " ++ joinSp rest

/-- Python `s.strip()`: drop whitespace from both ends of a string. -/
def pyStrip (s : String) : String :=
  String.mk (((s.data.dropWhile isPySpace).reverse.dropWhile isPySpace).reverse)

/-- Scanner modelling Python's `doc.split('\n\n')`: split on non-overlapping
occurrences of the two-character separator, left to right, keeping empty
pieces.  `cur` holds the characters of the current piece in reverse order. -/
def splitNNAux : List Char → List Char → List (List Char)
  | cur, '\n' :: '\n' :: rest => cur.reverse :: splitNNAux [] rest
  | cur, c :: rest => splitNNAux (c :: cur) rest
  | cur, [] => [cur.reverse]

/-- Python `doc.split('\n\n')` on a `String`. -/
def pySplitNN (s : String) : List String := (splitNNAux [] s.data).map String.mk

/-- The greedy sentence-accumulation loop of `DocumentChunker.__call__`
(`keep_sentences` branch), transcribed with the flushed groups kept as
sentence lists rather than joined strings.  `nTok` is the running counter
`n_tokens`, `keep` the accumulated group. -/
def sentGroups (limit : Nat) : List String → Nat → List String → List (List String)
  | [], _, keep => if keep.isEmpty then [] else [keep]
  | s :: rest, nTok, keep =>
    let n := nTok + numTokens s
    if limit < n then
      if keep.isEmpty then sentGroups limit rest n (keep ++ [s])
      else keep :: sentGroups limit rest 0 [s]
    else sentGroups limit rest n (keep ++ [s])

/-- The greedy sentence-accumulation loop of `DocumentChunker.__call__`
(`keep_sentences` branch), producing the chunks exactly as the source does:
each flushed group is emitted as `' '.join(keep)`. -/
def chunkLoop (limit : Nat) : List String → Nat → List String → List String
  | [], _, keep => if keep.isEmpty then [] else [joinSp keep]
  | s :: rest, nTok, keep =>
    let n := nTok + numTokens s
    if limit < n then
      if keep.isEmpty then chunkLoop limit rest n (keep ++ [s])
      else joinSp keep :: chunkLoop limit rest 0 [s]
    else chunkLoop limit rest n (keep ++ [s])

/-- The chunks produced for one document in sentence-preserving mode, given
the document's sentence list. -/
def sentenceChunks (limit : Nat) (sentences : List String) : List String :=
  chunkLoop limit sentences 0 []

/-- The token windows of the token-window branch:
`[split_doc[i:i + tokens_limit] for i in range(0, len(split_doc), tokens_limit)]`.
`List.range' 0 k limit` is Python's `range(0, n, limit)` with
`k = ceil(n / limit)` elements. -/
def tokenWindows (limit : Nat) (toks : List String) : List (List String) :=
  (List.range' 0 ((toks.length + limit - 1) / limit) limit).map
    (fun i => (toks.drop i).take limit)

/-- A dynamically typed result entry: either a Python string or a Python
list.  Per-document entries of `DocumentChunker.__call__` are built from
these so that the `isinstance(result[0][0], list)` check is expressible. -/
inductive PyObj : Type
  | str (s : String)
  | list (l : List PyObj)

/-- Iterating a `PyObj` as Python's `itertools.chain.from_iterable` does:
a list yields its elements; a string yields its one-character substrings. -/
def pyIter : PyObj → List PyObj
  | .list l => l
  | .str s => s.data.map (fun c => .str (String.mk [c]))

/-- One element of the input batch of `DocumentChunker.__call__`:
either a single document string or a list of document strings. -/
inductive BatchElem : Type
  | str (s : String)
  | docs (l : List String)

/-- The normalisation `if isinstance(docs, str): docs = [docs]`. -/
def elemDocs : BatchElem → List String
  | .str s => [s]
  | .docs l => l

/-- The configuration stored by `DocumentChunker.__init__`. -/
structure DocumentChunker : Type where
  sentencize_fn : String → List String
  keep_sentences : Bool := true
  tokens_limit : Nat := 400
  flatten_result : Bool := false
  paragraphs : Bool := false

/-- The per-document body of `DocumentChunker.__call__`.  `sent_tok` is the
module-level `sent_tokenize` imported from `nltk` — note that the source
calls this module-level function, not the stored `self._sentencize_fn`.
`none` models the `ValueError` raised by `range(0, n, 0)` when
`tokens_limit` is zero in the token-window branch. -/
def processDoc (sent_tok : String → List String) (c : DocumentChunker)
    (doc : String) : Option PyObj :=
  if c.paragraphs then
    some (.list ((((pySplitNN doc).map pyStrip).filter
      (fun x => 40 < x.length)).map .str))
  else if c.keep_sentences then
    some (.list ((sentenceChunks c.tokens_limit (sent_tok doc)).map .str))
  else if c.tokens_limit = 0 then none
  else
    some (.list ((tokenWindows c.tokens_limit (pySplitWS doc)).map
      (fun w => .list (w.map .str))))

/-- Sequential processing of a list where any failure aborts the whole
call, as a raised exception does in the Python loop. -/
def optMap (f : α → Option β) : List α → Option (List β)
  | [] => some []
  | x :: xs =>
    match f x, optMap f xs with
    | some y, some ys => some (y :: ys)
    | _, _ => none

/-- The per-batch-element body of `DocumentChunker.__call__`: normalise to a
document list and collect one entry per document. -/
def processElem (sent_tok : String → List String) (c : DocumentChunker)
    (e : BatchElem) : Option (List PyObj) :=
  optMap (processDoc sent_tok c) (elemDocs e)

/-- `DocumentChunker.__call__`.  After building `result`, when
`flatten_result` is set the source evaluates `isinstance(result[0][0], list)`
unconditionally: an empty batch or an empty first entry raises `IndexError`
(modelled by `none`); when the check sees a list, every batch element is
replaced by `list(chain.from_iterable(result[i]))`. -/
def DocumentChunker.call (sent_tok : String → List String)
    (c : DocumentChunker) (batch : List BatchElem) :
    Option (List (List PyObj)) :=
  match optMap (processElem sent_tok c) batch with
  | none => none
  | some result =>
    if c.flatten_result then
      match result.head? with
      | none => none
      | some r0 =>
        match r0.head? with
        | none => none
        | some (PyObj.list _) =>
          some (result.map (fun r => r.flatMap pyIter))
        | some (PyObj.str _) => some result
    else some result

/-- `StringMultiplier.__call__`: `[[s] * len(r) for s, r in zip(batch_s, ref)]`.
The element type of the reference lists is irrelevant (only their lengths are
used), so it is a type parameter. -/
def stringMultiplier {α : Type} (batch_s : List String) (ref : List (List α)) :
    List (List String) :=
  (batch_s.zip ref).map (fun p => List.replicate p.2.length p.1)

/-- Recursive characterisation of the token windows: repeatedly take
`limit` tokens.  Only used for `1 ≤ limit` (the `limit - 1` in the
recursive call makes the definition terminating in general). -/
def windowsRec (limit : Nat) : List String → List (List String)
  | [] => []
  | x :: xs => (x :: xs).take limit :: windowsRec limit (xs.drop (limit - 1))
termination_by l => l.length
decreasing_by
  simp only [List.length_drop, List.length_cons]
  omega

/-- A chunker constructed with a custom sentence-segmentation function that
always answers `["FSENT"]`; all other parameters keep their defaults. -/
def customChunker : DocumentChunker :=
  { sentencize_fn := fun _ => ["FSENT"] }

/-- A chunker configured for paragraph mode. -/
def paraChunker : DocumentChunker :=
  { sentencize_fn := fun d => [d], paragraphs := true }

/-- A chunker configured for token-window mode with `tokens_limit = 3`. -/
def tokenChunker : DocumentChunker :=
  { sentencize_fn := fun d => [d], keep_sentences := false, tokens_limit := 3 }

/-- A chunker with `flatten_result` set (otherwise default parameters). -/
def flatChunker : DocumentChunker :=
  { sentencize_fn := fun d => [d], flatten_result := true }

/-! ### Tokenization lemmas -/

theorem wsTokensAcc_append (a : List Char) (cur b : List Char) :
    wsTokensAcc cur (a ++ ' ' :: b) = wsTokensAcc cur a ++ wsTokensAcc [] b := by
  induction a generalizing cur with
  | nil =>
    cases h : cur.isEmpty <;> simp [wsTokensAcc, isPySpace, h]
  | cons c a' ih =>
    by_cases hc : isPySpace c = true
    · cases h : cur.isEmpty <;> simp [wsTokensAcc, hc, h, ih]
    · simp [wsTokensAcc, hc, ih]

theorem joinSp_cons_cons (s t : String) (r : List String) :
    joinSp (s :: t :: r) = s ++ " " ++ joinSp (t :: r) := rfl

theorem data_joinSp_cons_cons (s t : String) (r : List String) :
    (joinSp (s :: t :: r)).data = s.data ++ ' ' :: (joinSp (t :: r)).data := by
  rw [joinSp_cons_cons, String.data_append, String.data_append]
  simp

/-- The whitespace-token count of a space-joined list of strings is the sum
of the strings' token counts. -/
theorem numTokens_joinSp (l : List String) :
    numTokens (joinSp l) = (l.map numTokens).sum := by
  induction l with
  | nil => rfl
  | cons s rest ih =>
    cases rest with
    | nil => simp [joinSp, numTokens]
    | cons t r =>
      show (wsTokens (joinSp (s :: t :: r)).data).length = _
      rw [data_joinSp_cons_cons]
      show (wsTokensAcc [] (s.data ++ ' ' :: (joinSp (t :: r)).data)).length = _
      rw [wsTokensAcc_append]
      simp only [List.length_append, List.map_cons, List.sum_cons]
      exact congrArg (numTokens s + ·) ih

/-! ### Sentence-accumulation lemmas -/

theorem chunkLoop_eq_groups (limit : Nat) (ss : List String) (n : Nat)
    (keep : List String) :
    chunkLoop limit ss n keep = (sentGroups limit ss n keep).map joinSp := by
  induction ss generalizing n keep with
  | nil => cases h : keep.isEmpty <;> simp [chunkLoop, sentGroups, h]
  | cons s rest ih =>
    simp only [chunkLoop, sentGroups]
    by_cases h1 : limit < n + numTokens s
    · by_cases h2 : keep.isEmpty = true <;> simp [h1, h2, ih]
    · simp [h1, ih]

theorem sentGroups_flatten (limit : Nat) (ss : List String) (n : Nat)
    (keep : List String) :
    (sentGroups limit ss n keep).flatten = keep ++ ss := by
  induction ss generalizing n keep with
  | nil =>
    cases h : keep.isEmpty
    · simp [sentGroups, h]
    · simp [sentGroups, h, List.isEmpty_iff.mp h]
  | cons s rest ih =>
    simp only [sentGroups]
    by_cases h1 : limit < n + numTokens s
    · by_cases h2 : keep.isEmpty = true
      · simp [h1, h2, ih]
      · simp [h1, h2, ih]
    · simp [h1, ih]

theorem sentGroups_ne_nil (limit : Nat) (ss : List String) (n : Nat)
    (keep : List String) (g : List String)
    (hg : g ∈ sentGroups limit ss n keep) : g ≠ [] := by
  induction ss generalizing n keep with
  | nil =>
    cases h : keep.isEmpty
    · rw [sentGroups, h] at hg
      simp at hg
      subst hg
      simpa using h
    · rw [sentGroups, h] at hg
      simp at hg
  | cons s rest ih =>
    rw [sentGroups] at hg
    by_cases h1 : limit < n + numTokens s
    · by_cases h2 : keep.isEmpty = true
      · rw [if_pos h1, if_pos h2] at hg
        exact ih _ _ hg
      · rw [if_pos h1, if_neg h2] at hg
        rcases List.mem_cons.mp hg with h | h
        · subst h; simpa using h2
        · exact ih _ _ h
    · rw [if_neg h1] at hg
      exact ih _ _ hg

theorem sentGroups_tail_bound (limit : Nat) (ss : List String) (n : Nat)
    (keep : List String)
    (hk : ((keep.drop 1).map numTokens).sum ≤ min n limit) :
    ∀ g ∈ sentGroups limit ss n keep, ((g.drop 1).map numTokens).sum ≤ limit := by
  induction ss generalizing n keep with
  | nil =>
    intro g hg
    cases h : keep.isEmpty
    · rw [sentGroups, h] at hg
      simp at hg
      subst hg
      omega
    · rw [sentGroups, h] at hg
      simp at hg
  | cons s rest ih =>
    intro g hg
    rw [sentGroups] at hg
    by_cases h1 : limit < n + numTokens s
    · by_cases h2 : keep.isEmpty = true
      · rw [if_pos h1, if_pos h2] at hg
        have hke : keep = [] := List.isEmpty_iff.mp h2
        subst hke
        refine ih _ _ ?_ g hg
        simp
      · rw [if_pos h1, if_neg h2] at hg
        rcases List.mem_cons.mp hg with h | h
        · subst h; omega
        · refine ih _ _ ?_ g h
          simp
    · rw [if_neg h1] at hg
      refine ih _ _ ?_ g hg
      cases keep with
      | nil => simp
      | cons k kt =>
        simp only [List.cons_append, List.drop_succ_cons, List.drop_zero,
          List.map_append, List.sum_append] at hk ⊢
        simp only [List.map_cons, List.sum_cons, List.map_nil, List.sum_nil]
        omega
/-! ### Token-window lemmas -/

theorem windowsRec_nil (limit : Nat) : windowsRec limit [] = [] := by
  rw [windowsRec]

theorem windowsRec_cons (limit : Nat) (x : String) (xs : List String) :
    windowsRec limit (x :: xs) =
      (x :: xs).take limit :: windowsRec limit (xs.drop (limit - 1)) := by
  rw [windowsRec]

theorem windowsRec_eq_nil_iff (limit : Nat) (l : List String) :
    windowsRec limit l = [] ↔ l = [] := by
  cases l with
  | nil => simp [windowsRec_nil]
  | cons x xs => simp [windowsRec_cons]

theorem tokenWindows_nil (limit : Nat) (hl : 1 ≤ limit) :
    tokenWindows limit [] = [] := by
  unfold tokenWindows
  rw [show (([] : List String).length + limit - 1) / limit = 0 from
    Nat.div_eq_of_lt (by simp only [List.length_nil, Nat.zero_add]; omega)]
  rfl

theorem tokenWindows_eq_rec (limit : Nat) (hl : 1 ≤ limit) (toks : List String) :
    tokenWindows limit toks = windowsRec limit toks := by
  suffices h : ∀ (k : Nat) (l : List String), l.length ≤ k →
      tokenWindows limit l = windowsRec limit l from h toks.length toks le_rfl
  intro k
  induction k with
  | zero =>
    intro l hlen
    have : l = [] := List.length_eq_zero.mp (Nat.le_zero.mp hlen)
    subst this
    rw [windowsRec_nil, tokenWindows_nil limit hl]
  | succ k ih =>
    intro l hlen
    cases l with
    | nil => rw [windowsRec_nil, tokenWindows_nil limit hl]
    | cons x xs =>
      have hdrop : xs.drop (limit - 1) = (x :: xs).drop limit := by
        obtain ⟨m, rfl⟩ : ∃ m, limit = m + 1 := ⟨limit - 1, by omega⟩
        simp [List.drop_succ_cons]
      have hcount : ((x :: xs).length + limit - 1) / limit
          = ((x :: xs).length - 1) / limit + 1 := by
        rw [show (x :: xs).length + limit - 1 = ((x :: xs).length - 1) + limit by
          simp only [List.length_cons]; omega]
        exact Nat.add_div_right _ (by omega)
      have hcount2 : (((x :: xs).drop limit).length + limit - 1) / limit
          = ((x :: xs).length - 1) / limit := by
        rw [List.length_drop]
        rcases le_or_lt (x :: xs).length limit with hc | hc
        · rw [Nat.div_eq_of_lt (by simp only [List.length_cons] at hc ⊢; omega),
            Nat.div_eq_of_lt (by simp only [List.length_cons] at hc ⊢; omega)]
        · congr 1
          simp only [List.length_cons] at hc ⊢
          omega
      have htail : (List.range' limit (((x :: xs).length - 1) / limit) limit).map
          (fun i => ((x :: xs).drop i).take limit)
          = windowsRec limit ((x :: xs).drop limit) := by
        have hmap := List.map_add_range' limit 0 (((x :: xs).length - 1) / limit) limit
        rw [Nat.add_zero] at hmap
        rw [← hmap, List.map_map,
          ← ih ((x :: xs).drop limit)
            (by simp only [List.length_drop, List.length_cons] at hlen ⊢; omega)]
        unfold tokenWindows
        rw [hcount2]
        apply List.map_congr_left
        intro i _
        simp only [Function.comp_apply]
        rw [List.drop_drop]
      rw [windowsRec_cons, hdrop]
      unfold tokenWindows
      rw [hcount, List.range'_succ, List.map_cons, Nat.zero_add, htail]
      simp

theorem windowsRec_flatten (limit : Nat) (hl : 1 ≤ limit) (toks : List String) :
    (windowsRec limit toks).flatten = toks := by
  suffices h : ∀ (k : Nat) (l : List String), l.length ≤ k →
      (windowsRec limit l).flatten = l from h toks.length toks le_rfl
  intro k
  induction k with
  | zero =>
    intro l hlen
    have : l = [] := List.length_eq_zero.mp (Nat.le_zero.mp hlen)
    subst this
    rw [windowsRec_nil]
    rfl
  | succ k ih =>
    intro l hlen
    cases l with
    | nil => rw [windowsRec_nil]; rfl
    | cons x xs =>
      rw [windowsRec_cons, List.flatten_cons,
        ih (xs.drop (limit - 1))
          (by simp only [List.length_drop, List.length_cons] at hlen ⊢; omega)]
      obtain ⟨m, rfl⟩ : ∃ m, limit = m + 1 := ⟨limit - 1, by omega⟩
      simp only [List.take_succ_cons, Nat.add_sub_cancel, List.cons_append,
        List.cons.injEq, true_and]
      exact List.take_append_drop m xs

theorem windowsRec_mem_length (limit : Nat) (toks : List String)
    (w : List String) (hw : w ∈ windowsRec limit toks) : w.length ≤ limit := by
  suffices h : ∀ (k : Nat) (l : List String), l.length ≤ k →
      ∀ w ∈ windowsRec limit l, w.length ≤ limit from
    h toks.length toks le_rfl w hw
  intro k
  induction k with
  | zero =>
    intro l hlen w' hw'
    have : l = [] := List.length_eq_zero.mp (Nat.le_zero.mp hlen)
    subst this
    rw [windowsRec_nil] at hw'
    simp at hw'
  | succ k ih =>
    intro l hlen w' hw'
    cases l with
    | nil => rw [windowsRec_nil] at hw'; simp at hw'
    | cons x xs =>
      rw [windowsRec_cons] at hw'
      rcases List.mem_cons.mp hw' with h | h
      · subst h
        simp only [List.length_take, List.length_cons]
        omega
      · exact ih (xs.drop (limit - 1))
          (by simp only [List.length_drop, List.length_cons] at hlen ⊢; omega) w' h

theorem windowsRec_dropLast_length (limit : Nat) (toks : List String)
    (w : List String) (hw : w ∈ (windowsRec limit toks).dropLast) :
    w.length = limit := by
  suffices h : ∀ (k : Nat) (l : List String), l.length ≤ k →
      ∀ w ∈ (windowsRec limit l).dropLast, w.length = limit from
    h toks.length toks le_rfl w hw
  intro k
  induction k with
  | zero =>
    intro l hlen w' hw'
    have : l = [] := List.length_eq_zero.mp (Nat.le_zero.mp hlen)
    subst this
    rw [windowsRec_nil] at hw'
    simp at hw'
  | succ k ih =>
    intro l hlen w' hw'
    cases l with
    | nil => rw [windowsRec_nil] at hw'; simp at hw'
    | cons x xs =>
      rw [windowsRec_cons] at hw'
      rcases hrest : windowsRec limit (xs.drop (limit - 1)) with _ | ⟨r, rs⟩
      · rw [hrest] at hw'
        simp at hw'
      · rw [hrest, List.dropLast_cons₂] at hw'
        rcases List.mem_cons.mp hw' with h | h
        · subst h
          have hne : xs.drop (limit - 1) ≠ [] := by
            intro hnil
            rw [hnil, windowsRec_nil] at hrest
            exact List.noConfusion hrest
          have hxs : limit - 1 < xs.length := by
            by_contra hge
            exact hne (List.drop_eq_nil_of_le (by omega))
          simp only [List.length_take, List.length_cons]
          omega
        · rw [← hrest] at h
          exact ih (xs.drop (limit - 1))
            (by simp only [List.length_drop, List.length_cons] at hlen ⊢; omega) w' h

/-! ### Batch-processing lemmas -/

theorem optMap_length {α β : Type} (f : α → Option β) (l : List α)
    (res : List β) (h : optMap f l = some res) : res.length = l.length := by
  induction l generalizing res with
  | nil =>
    rw [optMap] at h
    cases h
    rfl
  | cons x xs ih =>
    rw [optMap] at h
    rcases hx : f x with _ | y <;> rw [hx] at h
    · exact absurd h (by simp)
    · rcases hxs : optMap f xs with _ | ys <;> rw [hxs] at h
      · exact absurd h (by simp)
      · cases h
        simp [ih ys hxs]

theorem optMap_getElem? {α β : Type} (f : α → Option β) (l : List α)
    (res : List β) (h : optMap f l = some res) (i : Nat) :
    res[i]? = (l[i]?).bind f := by
  induction l generalizing res i with
  | nil =>
    rw [optMap] at h
    cases h
    simp
  | cons x xs ih =>
    rw [optMap] at h
    rcases hx : f x with _ | y <;> rw [hx] at h
    · exact absurd h (by simp)
    · rcases hxs : optMap f xs with _ | ys <;> rw [hxs] at h
      · exact absurd h (by simp)
      · cases h
        cases i with
        | zero => simp [hx]
        | succ j => simp only [List.getElem?_cons_succ, ih ys hxs j]

theorem optMap_isSome {α β : Type} (f : α → Option β) (l : List α)
    (h : ∀ x ∈ l, ∃ y, f x = some y) : ∃ res, optMap f l = some res := by
  induction l with
  | nil => exact ⟨[], rfl⟩
  | cons x xs ih =>
    obtain ⟨y, hy⟩ := h x (List.mem_cons_self x xs)
    obtain ⟨ys, hys⟩ := ih (fun a ha => h a (List.mem_cons_of_mem x ha))
    exact ⟨y :: ys, by rw [optMap, hy, hys]⟩

/-- The per-document body never fails except in token-window mode with a
zero `tokens_limit`. -/
theorem processDoc_isSome (g : String → List String) (c : DocumentChunker)
    (doc : String)
    (h : c.paragraphs = true ∨ c.keep_sentences = true ∨ 1 ≤ c.tokens_limit) :
    ∃ o, processDoc g c doc = some o := by
  unfold processDoc
  by_cases hp : c.paragraphs = true
  · exact ⟨_, by rw [if_pos hp]⟩
  · by_cases hk : c.keep_sentences = true
    · exact ⟨_, by rw [if_neg hp, if_pos hk]⟩
    · have hl : ¬ c.tokens_limit = 0 := by
        rcases h with h | h | h
        · exact absurd h hp
        · exact absurd h hk
        · omega
      exact ⟨_, by rw [if_neg hp, if_neg hk, if_neg hl]⟩

/-- Every successfully produced per-document entry is a Python list. -/
theorem processDoc_isList (g : String → List String) (c : DocumentChunker)
    (doc : String) (o : PyObj) (h : processDoc g c doc = some o) :
    ∃ l, o = PyObj.list l := by
  unfold processDoc at h
  by_cases hp : c.paragraphs = true
  · rw [if_pos hp] at h
    cases h
    exact ⟨_, rfl⟩
  · rw [if_neg hp] at h
    by_cases hk : c.keep_sentences = true
    · rw [if_pos hk] at h
      cases h
      exact ⟨_, rfl⟩
    · rw [if_neg hk] at h
      by_cases hl : c.tokens_limit = 0
      · rw [if_pos hl] at h
        exact absurd h (by simp)
      · rw [if_neg hl] at h
        cases h
        exact ⟨_, rfl⟩

/-! ### StringMultiplier lemmas -/

theorem stringMultiplier_length {α : Type} (bs : List String)
    (ref : List (List α)) :
    (stringMultiplier bs ref).length = min bs.length ref.length := by
  simp [stringMultiplier, List.length_zip]

theorem stringMultiplier_getElem? {α : Type} (bs : List String)
    (ref : List (List α)) (i : Nat) :
    (stringMultiplier bs ref)[i]? =
      (bs[i]?).bind (fun s => (ref[i]?).map
        (fun r => List.replicate r.length s)) := by
  induction bs generalizing ref i with
  | nil => simp [stringMultiplier]
  | cons b bs ih =>
    cases ref with
    | nil => simp [stringMultiplier]
    | cons r rs =>
      cases i with
      | zero => simp [stringMultiplier, List.zip_cons_cons]
      | succ j =>
        have := ih rs j
        simp only [stringMultiplier, List.zip_cons_cons, List.map_cons,
          List.getElem?_cons_succ] at this ⊢
        exact this

/-! ### Claim theorems -/

/-- Claim C1 (evaluation of the code bug): the constructor-supplied
segmentation function is stored but never used — `__call__` segments with
the module-level `sent_tokenize`.  Here the stored function answers
`["FSENT"]` on every input, the module-level function answers `["GSENT"]`,
and the produced chunk is `"GSENT"`, not `"FSENT"`. -/
theorem C1_sentencize_fn_ignored :
    DocumentChunker.call (fun _ => ["GSENT"]) customChunker [.str "doc"]
      = some [[PyObj.list [PyObj.str "GSENT"]]]
    ∧ customChunker.sentencize_fn "doc" = ["FSENT"]
    ∧ (["FSENT"] : List String) ≠ ["GSENT"] :=
  ⟨rfl, rfl, by decide⟩

/-- Claim C2, counterexample: on batches of different lengths
`StringMultiplier.__call__` does not fail; `zip` silently truncates to the
shorter length and a (truncated) result is returned. -/
theorem C2_counterexample_zip_truncates :
    (["a", "b"] : List String).length ≠ ([["x"]] : List (List String)).length
    ∧ stringMultiplier ["a", "b"] ([["x"]] : List (List String)) = [["a"]] :=
  ⟨by decide, rfl⟩

/-- Claim C2, amended: when `batch_s` and `ref` differ in length the call
returns normally with the zip-truncated result: the output length is the
minimum of the two input lengths, and entry `i` is `batch_s[i]` repeated
`len(ref[i])` times whenever both inputs have an entry `i`. -/
theorem C2_amended_truncation :
    ∀ (α : Type) (bs : List String) (ref : List (List α)),
    (stringMultiplier bs ref).length = min bs.length ref.length
    ∧ ∀ i : Nat, (stringMultiplier bs ref)[i]? =
        (bs[i]?).bind (fun s => (ref[i]?).map
          (fun r => List.replicate r.length s)) :=
  fun _ bs ref => ⟨stringMultiplier_length bs ref, stringMultiplier_getElem? bs ref⟩

/-- Claim C7: on equal-length inputs the result has the same length and
entry `i` is `batch_s[i]` repeated `len(ref[i])` times (so an empty
reference entry yields an empty list). -/
theorem C7_string_multiplier_equal_lengths :
    ∀ (α : Type) (bs : List String) (ref : List (List α)),
    bs.length = ref.length →
    (stringMultiplier bs ref).length = bs.length
    ∧ ∀ (i : Nat) (h1 : i < bs.length) (h2 : i < ref.length)
        (h3 : i < (stringMultiplier bs ref).length),
        (stringMultiplier bs ref)[i] = List.replicate (ref[i]).length (bs[i]) := by
  intro α bs ref h
  constructor
  · rw [stringMultiplier_length, h, min_self]
  · intro i h1 h2 h3
    have h4 := stringMultiplier_getElem? bs ref i
    rw [List.getElem?_eq_getElem h1, List.getElem?_eq_getElem h2,
      List.getElem?_eq_getElem h3] at h4
    simpa using h4

/-- Witness for C7 at the specification's example. -/
theorem C7_string_multiplier_equal_lengths_witness :
    (stringMultiplier ["x", "y"] ([[1, 2, 3], [1]] : List (List Nat))).length = 2
    ∧ stringMultiplier ["x", "y"] ([[1, 2, 3], [1]] : List (List Nat))
        = [["x", "x", "x"], ["y"]] :=
  ⟨(C7_string_multiplier_equal_lengths Nat ["x", "y"] [[1, 2, 3], [1]]
      (by decide)).1, rfl⟩

/-- Claim C3: in sentence-preserving mode the chunks are exactly the joined
accumulated groups, and each chunk's whitespace-token count is at most
`tokens_limit` plus the token count of the chunk's first (carried-over)
sentence. -/
theorem C3_chunk_token_budget :
    ∀ (limit : Nat) (ss : List String), 1 ≤ limit →
    sentenceChunks limit ss = (sentGroups limit ss 0 []).map joinSp
    ∧ ∀ g ∈ sentGroups limit ss 0 [],
        numTokens (joinSp g) ≤ limit + numTokens (g.headD "") := by
  intro limit ss _
  refine ⟨chunkLoop_eq_groups limit ss 0 [], ?_⟩
  intro g hg
  have hne := sentGroups_ne_nil limit ss 0 [] g hg
  obtain ⟨h, t, rfl⟩ := List.exists_cons_of_ne_nil hne
  have hb := sentGroups_tail_bound limit ss 0 [] (by simp) (h :: t) hg
  have hb' : (t.map numTokens).sum ≤ limit := by simpa using hb
  rw [numTokens_joinSp]
  simp only [List.map_cons, List.sum_cons, List.headD_cons]
  omega

/-- Witness for C3 at the specification's example
(`tokens_limit = 5`, sentences of word counts 3, 3, 1). -/
theorem C3_chunk_token_budget_witness :
    numTokens (joinSp ["four five six", "seven"])
      ≤ 5 + numTokens (["four five six", "seven"].headD "") :=
  (C3_chunk_token_budget 5 ["one two three", "four five six", "seven"]
    (by decide)).2 ["four five six", "seven"] (by decide)

/-- Claim C4, counterexample: a mid-document sentence whose own token count
exceeds `tokens_limit` is not emitted alone.  After the flush it triggers,
the counter restarts at zero without counting it, so the later short
sentence `"x"` joins its group and the final chunk contains both. -/
theorem C4_counterexample_oversized_not_alone :
    5 < numTokens "s one two three four five six"
    ∧ sentenceChunks 5 ["a b c", "s one two three four five six", "x"]
        = ["a b c", "s one two three four five six x"]
    ∧ "s one two three four five six"
        ∉ sentenceChunks 5 ["a b c", "s one two three four five six", "x"] :=
  ⟨by decide, rfl, by decide⟩

/-- Claim C4, amended: the greedy accumulation flushes the non-empty group
when the counter exceeds the limit, resets the counter and carries the
current sentence; sentences are never sub-split or dropped (the groups
flatten back to the exact sentence sequence) and every emitted group is
non-empty — but an oversized sentence need not end up alone in its chunk. -/
theorem C4_amended_accumulation :
    ∀ (limit : Nat) (ss : List String),
    sentenceChunks limit ss = (sentGroups limit ss 0 []).map joinSp
    ∧ (sentGroups limit ss 0 []).flatten = ss
    ∧ ∀ g ∈ sentGroups limit ss 0 [], g ≠ [] :=
  fun limit ss =>
    ⟨chunkLoop_eq_groups limit ss 0 [],
     by simpa using sentGroups_flatten limit ss 0 [],
     fun g hg => sentGroups_ne_nil limit ss 0 [] g hg⟩

/-- Witness for the amended C4. -/
theorem C4_amended_accumulation_witness :
    sentenceChunks 5 ["a b", "c d"] = (sentGroups 5 ["a b", "c d"] 0 []).map joinSp
    ∧ (["a b", "c d"] : List String) ≠ [] :=
  ⟨(C4_amended_accumulation 5 ["a b", "c d"]).1,
   (C4_amended_accumulation 5 ["a b", "c d"]).2.2 ["a b", "c d"] (by decide)⟩

/-- Claim C5: in paragraph mode the chunks for a document are exactly the
double-newline-separated pieces, stripped, with pieces of trimmed length
at most 40 discarded, in order; and on the specification's example only the
second paragraph survives. -/
theorem C5_paragraph_mode :
    (∀ (g : String → List String) (c : DocumentChunker) (doc : String),
      c.paragraphs = true → c.flatten_result = false →
      DocumentChunker.call g c [.str doc] = some [[PyObj.list
        ((((pySplitNN doc).map pyStrip).filter
          (fun x => 40 < x.length)).map PyObj.str)]])
    ∧ DocumentChunker.call (fun d => [d]) paraChunker
        [.str "Short.\n\nThis is a long enough paragraph to survive the forty character filter easily."]
        = some [[PyObj.list [PyObj.str
            "This is a long enough paragraph to survive the forty character filter easily."]]] := by
  constructor
  · intro g c doc hp hf
    simp [DocumentChunker.call, optMap, processElem, elemDocs, processDoc, hp, hf]
  · rfl

/-- Witness for C5. -/
theorem C5_paragraph_mode_witness :
    DocumentChunker.call (fun d => [d]) paraChunker [.str "a\n\nb"]
      = some [[PyObj.list ((((pySplitNN "a\n\nb").map pyStrip).filter
          (fun x => 40 < x.length)).map PyObj.str)]] :=
  C5_paragraph_mode.1 (fun d => [d]) paraChunker "a\n\nb" rfl rfl

/-- Claim C6: in token-window mode the document's whitespace tokens are
partitioned into consecutive windows of exactly `tokens_limit` tokens (the
final window possibly shorter); concatenating the windows reproduces the
token list; each per-document entry is the list of windows as token lists;
and the specification's example holds. -/
theorem C6_token_window_mode :
    (∀ (limit : Nat) (toks : List String), 1 ≤ limit →
      (tokenWindows limit toks).flatten = toks
      ∧ (∀ w ∈ (tokenWindows limit toks).dropLast, w.length = limit)
      ∧ (∀ w ∈ tokenWindows limit toks, w.length ≤ limit))
    ∧ (∀ (g : String → List String) (c : DocumentChunker) (doc : String),
      c.paragraphs = false → c.keep_sentences = false →
      1 ≤ c.tokens_limit → c.flatten_result = false →
      DocumentChunker.call g c [.str doc] = some [[PyObj.list
        ((tokenWindows c.tokens_limit (pySplitWS doc)).map
          (fun w => PyObj.list (w.map PyObj.str)))]])
    ∧ tokenWindows 3 (pySplitWS "a b c d e f g")
        = [["a", "b", "c"], ["d", "e", "f"], ["g"]] := by
  refine ⟨?_, ?_, by decide⟩
  · intro limit toks hl
    rw [tokenWindows_eq_rec limit hl]
    exact ⟨windowsRec_flatten limit hl toks,
      fun w hw => windowsRec_dropLast_length limit toks w hw,
      fun w hw => windowsRec_mem_length limit toks w hw⟩
  · intro g c doc hp hk hl hf
    have hl0 : ¬ c.tokens_limit = 0 := by omega
    simp [DocumentChunker.call, optMap, processElem, elemDocs, processDoc,
      hp, hk, hl0, hf]

/-- Witness for C6. -/
theorem C6_token_window_mode_witness :
    (tokenWindows 3 (pySplitWS "a b c d e f g")).flatten
      = pySplitWS "a b c d e f g"
    ∧ DocumentChunker.call (fun d => [d]) tokenChunker [.str "a b c d e f g"]
        = some [[PyObj.list ((tokenWindows 3 (pySplitWS "a b c d e f g")).map
            (fun w => PyObj.list (w.map PyObj.str)))]] :=
  ⟨(C6_token_window_mode.1 3 (pySplitWS "a b c d e f g") (by decide)).1,
   C6_token_window_mode.2.1 (fun d => [d]) tokenChunker "a b c d e f g"
     rfl rfl (by decide) rfl⟩

/-- Claim C8, counterexample: with `flatten_result` set, the empty batch
does not return an empty batch-shaped result — the call fails on the
unconditional `result[0]` access. -/
theorem C8_counterexample_flatten_empty_batch :
    DocumentChunker.call (fun d => [d]) flatChunker [] = none := rfl

/-- Claim C8, amended: both components preserve batch length and compute
the `i`-th output entry from the `i`-th input element alone, provided the
configuration cannot fail: `tokens_limit ≥ 1` in token-window mode, and,
when `flatten_result` is set, a non-empty batch whose first element
contributes at least one per-document entry; for `StringMultiplier`,
equal-length inputs. -/
theorem C8_amended_batch_shape :
    (∀ (g : String → List String) (c : DocumentChunker) (batch : List BatchElem),
      (c.paragraphs = true ∨ c.keep_sentences = true ∨ 1 ≤ c.tokens_limit) →
      (c.flatten_result = true → ∃ e rest, batch = e :: rest ∧ elemDocs e ≠ []) →
      ∃ out, DocumentChunker.call g c batch = some out
        ∧ out.length = batch.length
        ∧ ∀ i : Nat, out[i]? = (batch[i]?).bind (fun e =>
            (processElem g c e).map (fun r =>
              if c.flatten_result then r.flatMap pyIter else r)))
    ∧ (∀ (α : Type) (bs : List String) (ref : List (List α)),
      bs.length = ref.length →
      (stringMultiplier bs ref).length = bs.length
      ∧ ∀ i : Nat, (stringMultiplier bs ref)[i]? = (bs[i]?).bind (fun s =>
          (ref[i]?).map (fun r => List.replicate r.length s))) := by
  constructor
  · intro g c batch h1 h2
    have hsome : ∀ e ∈ batch, ∃ r, processElem g c e = some r :=
      fun e _ => optMap_isSome _ _ (fun d _ => processDoc_isSome g c d h1)
    obtain ⟨result, hres⟩ := optMap_isSome _ _ hsome
    cases hf : c.flatten_result with
    | false =>
      refine ⟨result, ?_, optMap_length _ _ _ hres, ?_⟩
      · unfold DocumentChunker.call
        rw [hres, hf]
        simp
      · intro i
        rw [optMap_getElem? _ _ _ hres i]
        cases hbe : batch[i]? with
        | none => simp
        | some e =>
          cases hpe : processElem g c e with
          | none => simp [hpe]
          | some r => simp [hpe, hf]
    | true =>
      obtain ⟨e0, rest, hbatch, hne⟩ := h2 hf
      subst hbatch
      obtain ⟨r0, hr0⟩ := hsome e0 (List.mem_cons_self _ _)
      have hresult0 : result[0]? = some r0 := by
        rw [optMap_getElem? _ _ _ hres 0]
        simp [hr0]
      have hr0len : r0.length = (elemDocs e0).length := optMap_length _ _ _ hr0
      have hr0ne : r0 ≠ [] := by
        intro hnil
        rw [hnil] at hr0len
        exact hne (List.length_eq_zero.mp hr0len.symm)
      obtain ⟨o0, r0t, rfl⟩ := List.exists_cons_of_ne_nil hr0ne
      obtain ⟨d0, dt, hd⟩ := List.exists_cons_of_ne_nil hne
      have hpd0 : processDoc g c d0 = some o0 := by
        have h0 := optMap_getElem? _ _ _ hr0 0
        rw [hd] at h0
        simpa using h0.symm
      obtain ⟨l0, hl0⟩ := processDoc_isList g c d0 o0 hpd0
      have hhead : result.head? = some (o0 :: r0t) := by
        rw [List.head?_eq_getElem?]
        exact hresult0
      refine ⟨result.map (fun r => r.flatMap pyIter), ?_, ?_, ?_⟩
      · unfold DocumentChunker.call
        rw [hres]
        simp [hf, hhead, hl0]
      · rw [List.length_map]
        exact optMap_length _ _ _ hres
      · intro i
        rw [List.getElem?_map, optMap_getElem? _ _ _ hres i]
        cases hbe : (e0 :: rest)[i]? with
        | none => simp
        | some e =>
          cases hpe : processElem g c e with
          | none => simp [hpe]
          | some r => simp [hpe, hf]
  · intro α bs ref h
    refine ⟨?_, stringMultiplier_getElem? bs ref⟩
    rw [stringMultiplier_length, h, min_self]

/-- Witness for the amended C8. -/
theorem C8_amended_batch_shape_witness :
    (∃ out, DocumentChunker.call (fun d => [d]) flatChunker [BatchElem.str "x"]
        = some out
      ∧ out.length = 1
      ∧ ∀ i : Nat, out[i]? =
          (([BatchElem.str "x"] : List BatchElem)[i]?).bind (fun e =>
            (processElem (fun d => [d]) flatChunker e).map (fun r =>
              if flatChunker.flatten_result then r.flatMap pyIter else r)))
    ∧ ((stringMultiplier ["a"] ([["q", "r"]] : List (List String))).length = 1) :=
  ⟨C8_amended_batch_shape.1 (fun d => [d]) flatChunker [BatchElem.str "x"]
      (Or.inr (Or.inl rfl))
      (fun _ => ⟨BatchElem.str "x", [], rfl, by decide⟩),
   (C8_amended_batch_shape.2 String ["a"] [["q", "r"]] (by decide)).1⟩

/-- Claim C9: with `flatten_result` set, an empty batch or a first batch
element contributing zero per-document entries (an empty document list)
makes the call fail on the unconditional `result[0][0]` access. -/
theorem C9_flatten_index_error :
    ∀ (g : String → List String) (c : DocumentChunker) (batch : List BatchElem),
    c.flatten_result = true →
    (batch = [] ∨ ∃ rest, batch = BatchElem.docs [] :: rest) →
    DocumentChunker.call g c batch = none := by
  intro g c batch hf h
  rcases h with rfl | ⟨rest, rfl⟩
  · simp [DocumentChunker.call, optMap, hf]
  · have h0 : processElem g c (BatchElem.docs []) = some [] := rfl
    unfold DocumentChunker.call
    cases hrest : optMap (processElem g c) rest with
    | none =>
      rw [show optMap (processElem g c) (BatchElem.docs [] :: rest) = none by
        rw [optMap, h0, hrest]]
    | some res =>
      rw [show optMap (processElem g c) (BatchElem.docs [] :: rest)
          = some ([] :: res) by rw [optMap, h0, hrest]]
      simp [hf]

/-- Witness for C9: a singleton batch whose only element is an empty
document list. -/
theorem C9_flatten_index_error_witness :
    DocumentChunker.call (fun d => [d]) flatChunker [BatchElem.docs []] = none :=
  C9_flatten_index_error (fun d => [d]) flatChunker [BatchElem.docs []] rfl
    (Or.inr ⟨[], rfl⟩)

/-- Claim C10: whenever the flatten check reads the first element of the
first result entry without error, that element is a Python list — so with
`flatten_result` set the flattening branch is always the one taken, every
batch entry being replaced by the concatenation of its per-document
lists. -/
theorem C10_flatten_always_list :
    ∀ (g : String → List String) (c : DocumentChunker) (batch : List BatchElem)
      (result : List (List PyObj)) (r0 : List PyObj) (e0 : PyObj),
    c.flatten_result = true →
    optMap (processElem g c) batch = some result →
    result.head? = some r0 → r0.head? = some e0 →
    (∃ l, e0 = PyObj.list l)
    ∧ DocumentChunker.call g c batch
        = some (result.map (fun r => r.flatMap pyIter)) := by
  intro g c batch result r0 e0 hf hres hr0 he0
  have hr0' : result[0]? = some r0 := by
    rw [← List.head?_eq_getElem?]
    exact hr0
  have h0 := optMap_getElem? _ _ _ hres 0
  rw [hr0'] at h0
  cases hb : batch[0]? with
  | none =>
    rw [hb] at h0
    simp at h0
  | some e =>
    rw [hb] at h0
    have hpe : processElem g c e = some r0 := by simpa using h0.symm
    have he0' : r0[0]? = some e0 := by
      rw [← List.head?_eq_getElem?]
      exact he0
    have h1 := optMap_getElem? _ _ _ hpe 0
    rw [he0'] at h1
    cases hd : (elemDocs e)[0]? with
    | none =>
      rw [hd] at h1
      simp at h1
    | some d =>
      rw [hd] at h1
      have hpd : processDoc g c d = some e0 := by simpa using h1.symm
      obtain ⟨l, hl⟩ := processDoc_isList g c d e0 hpd
      refine ⟨⟨l, hl⟩, ?_⟩
      unfold DocumentChunker.call
      rw [hres]
      simp [hf, hr0, he0, hl]

/-- Witness for C10 on a concrete singleton batch. -/
theorem C10_flatten_always_list_witness :
    (∃ l, PyObj.list [PyObj.str "x"] = PyObj.list l)
    ∧ DocumentChunker.call (fun d => [d]) flatChunker [BatchElem.str "x"]
        = some [[PyObj.str "x"]] :=
  C10_flatten_always_list (fun d => [d]) flatChunker [BatchElem.str "x"]
    [[PyObj.list [PyObj.str "x"]]] [PyObj.list [PyObj.str "x"]]
    (PyObj.list [PyObj.str "x"]) rfl rfl rfl rfl
